import Mathlib

/-!
Verification of the path-lookup analysis modules: a shallow embedding of
the functions in modules/utilis.py and modules/pathLookup.py, together
with theorems settling the specification claims about them.

Python strings are modelled as Lean strings; the Python string operations
used by the code (split, replace, substring membership, startswith, join)
are embedded as structurally recursive functions over the character list,
with the exact CPython semantics for the inputs the code produces.
Python dictionaries are modelled as insertion-ordered association lists.
Functions that can raise are embedded in Except; a Python function that
can fall off the end and return None is embedded with an Option result.
-/

namespace IPF

/-! ## Python string primitives -/

/-- Helper for prefix matching: if the first list starts the second,
return the remainder of the second list, otherwise none. -/
def afterMatch? : List Char → List Char → Option (List Char)
  | [], s => some s
  | _ :: _, [] => none
  | p :: ps, c :: cs => if p = c then afterMatch? ps cs else none

/-- Substring search over character lists: true when the needle occurs
contiguously in the haystack (CPython membership test on str). -/
def containsAux (needle : List Char) : List Char → Bool
  | [] => needle.isEmpty
  | c :: rest => (afterMatch? needle (c :: rest)).isSome || containsAux needle rest

/-- Embedding of the Python expression needle in hay for strings. -/
def pyIn (needle hay : String) : Bool := containsAux needle.toList hay.toList

/-- Fuelled worker for pySplit; the fuel is the length of the scanned list,
which bounds the number of steps because each step consumes at least one
character whenever the separator is nonempty. -/
def pySplitAux (sep : List Char) : Nat → List Char → List Char → List (List Char)
  | _, [], cur => [cur.reverse]
  | 0, s, cur => [cur.reverse ++ s]
  | fuel + 1, c :: rest, cur =>
    match afterMatch? sep (c :: rest) with
    | some rest' => cur.reverse :: pySplitAux sep fuel rest' []
    | none => pySplitAux sep fuel rest (c :: cur)

/-- Embedding of CPython str.split with an explicit nonempty separator. -/
def pySplit (s sep : String) : List String :=
  (pySplitAux sep.toList s.toList.length s.toList []).map fun l => ⟨l⟩

/-- Fuelled worker for pyReplace, scanning left to right and replacing
non-overlapping occurrences. -/
def pyReplaceAux (old new : List Char) : Nat → List Char → List Char
  | _, [] => []
  | 0, s => s
  | fuel + 1, c :: rest =>
    match afterMatch? old (c :: rest) with
    | some rest' => new ++ pyReplaceAux old new fuel rest'
    | none => c :: pyReplaceAux old new fuel rest

/-- Embedding of CPython str.replace with a nonempty pattern. -/
def pyReplace (s old new : String) : String :=
  ⟨pyReplaceAux old.toList new.toList s.toList.length s.toList⟩

/-- Embedding of CPython str.startswith. -/
def pyStartsWith (s pre : String) : Bool := pre.toList.isPrefixOf s.toList

/-- Embedding of CPython sep.join(items). -/
def pyJoin (sep : String) : List String → String
  | [] => ""
  | [x] => x
  | x :: y :: rest => x ++ sep ++ pyJoin sep (y :: rest)

/-- Truthiness of an optional Python list: only a present, nonempty list
is truthy. -/
def truthyList {α : Type} : Option (List α) → Bool
  | some (_ :: _) => true
  | _ => false

/-- Truthiness of an optional Python string: None and the empty string
are falsy. -/
def strOptTruthy : Option String → Bool
  | some s => s != ""
  | none => false

/-! ## Data model

The JSON-shaped inputs of the analysed code: the edge map of the path
graph, the per-device decision table with its traces and events, and the
zone-firewall interface table. -/

structure Edge where
  id : String
  nextEdgeIds : List String
deriving DecidableEq

/-- Insertion-ordered edge map of the path graph. -/
abbrev PathGraph := List (String × Edge)

structure SeverityInfo where
  severity : Int
deriving DecidableEq

structure Event where
  type : String
  headerType : String
  decidingPolicyName : String
  severityInfo : SeverityInfo
deriving DecidableEq

/-- One trace step of a decision record, with its rule chain and events. -/
structure TraceStep where
  chain : String
  events : List Event
deriving DecidableEq

/-- One trace value from a decision record: a list of trace steps. -/
abbrev Trace := List TraceStep

structure TraceRecord where
  sourcePacketId : String
  targetPacketId : String
  trace : Trace
deriving DecidableEq

structure DeviceDecision where
  traces : List TraceRecord
deriving DecidableEq

/-- Per-device decision table, keyed by device id. -/
abbrev DecisionTable := List (String × DeviceDecision)

/-- One row of the zone-firewall interface table. -/
structure ZoneIntf where
  hostname : String
  intName : String
  zone : List String
deriving DecidableEq

/-- Dictionary lookup in the edge map. -/
def pgFind (g : PathGraph) (k : String) : Option Edge :=
  (List.find? (fun p => p.1 == k) g).map Prod.snd

/-- Dictionary lookup in the decision table. -/
def dtFind (dec : DecisionTable) (k : String) : Option DeviceDecision :=
  (List.find? (fun p => p.1 == k) dec).map Prod.snd

/-! ## modules/utilis.py -/

/-- Embedding of display_severity: map the four ranked severity levels to
their icons and anything else to the question mark. -/
def display_severity (value : Int) : String :=
  if value = 0 then "✅"
  else if value = 10 then "🔵"
  else if value = 20 then "🟠"
  else if value = 30 then "❌"
  else "❓"

/-- Embedding of remove_vdevice_id: with return_device_id false the call
returns only the display name (inl); with the flag true it returns the
name and device id pair (inr), the id being None when the token carries
no resolved hostname. -/
def remove_vdevice_id (vdevice_id_name : String) (return_device_id : Bool) :
    Sum String (String × Option String) :=
  let s := pySplit vdevice_id_name "!"
  if !return_device_id then
    Sum.inl (match s with
      | _ :: second :: _ => second
      | _ => vdevice_id_name)
  else
    match s with
    | first :: second :: _ => Sum.inr (second, some first)
    | _ => Sum.inr (vdevice_id_name, none)

/-- Display-name component of the pair mode of remove_vdevice_id. -/
def rv_pair_name (t : String) : String :=
  match remove_vdevice_id t true with
  | Sum.inr (name, _) => name
  | Sum.inl name => name

/-- Embedding of replace_vdevice_id. The Python function indexes
nextEdgeIds at 0 and indexes the split of the predecessor id at 1; both
indexings can raise IndexError, which the embedding returns as an error.
A normal return is ok with the optional string the function returns. -/
def replace_vdevice_id (prev_next_edge_dict : Edge) : Except String (Option String) :=
  match prev_next_edge_dict.nextEdgeIds with
  | [] => .error "IndexError"
  | next_edge_id :: _ =>
    if (pySplit next_edge_id "!").length ≠ 1 then .ok (some next_edge_id)
    else
      let device_id := (pySplit next_edge_id "@").headD ""
      if device_id != "" then
        match pySplit prev_next_edge_dict.id (device_id ++ "!") with
        | _ :: second :: _ =>
          let hostname := (pySplit second "@").headD ""
          .ok (some (pyReplace next_edge_id device_id (device_id ++ "!" ++ hostname)))
        | _ => .error "IndexError"
      else .ok none

/-! ## modules/pathLookup.py -/

def CHAIN_SWITCHING : String := "switching-nexthop"

def EVENT_HEADER_TYPE : List String := ["vxlan", "capwap", "gre", "esp", "mpls", "ip", "fp"]

def L2_EXCLUSION_PROTOCOL : List String := ["l2", "fp"]

/-- Embedding of the next-edge expression of the follow loop: the first
successor of prev when prev is a key of the edge map and has successors,
otherwise None. -/
def next_edge_of (g : PathGraph) (prev : String) : Option String :=
  match pgFind g prev with
  | some e => e.nextEdgeIds.head?
  | none => none

/-- Fuelled embedding of the while loop of follow_path_first_option. The
state is the pending next edge id, the previously followed id and the
accumulated list; elements of the list are optional strings because the
Python list may receive None from replace_vdevice_id. The result is none
when the fuel runs out (the Python loop would still be running), and
otherwise the outcome: ok with the final list, or error when a dictionary
or index access raises. -/
def follow_loop (g : PathGraph) :
    Nat → Option String → String → List (Option String) →
    Option (Except String (List (Option String)))
  | _, none, _, acc => some (.ok acc)
  | 0, some _, _, _ => none
  | fuel + 1, some nid, prev, acc =>
    match pgFind g nid with
    | some e => follow_loop g fuel (next_edge_of g nid) nid (acc ++ [some e.id])
    | none =>
      match pgFind g prev with
      | none => some (.error "KeyError")
      | some pe =>
        match replace_vdevice_id pe with
        | .error msg => some (.error msg)
        | .ok v => follow_loop g fuel (next_edge_of g nid) nid (acc ++ [v])

/-- Embedding of follow_path_first_option. When the edge map is empty the
Python function falls off the end and returns None, embedded as ok none;
otherwise it seeds the accumulator with the id of the first-inserted edge
and runs the loop. -/
def follow_path_first_option (g : PathGraph) (fuel : Nat) :
    Option (Except String (Option (List (Option String)))) :=
  match g with
  | [] => some (.ok none)
  | (_, first_edge) :: _ =>
    (follow_loop g fuel first_edge.nextEdgeIds.head? first_edge.id
        [some first_edge.id]).map (Except.map some)

/-- Embedding of find_zonefw_interface: first row matching the device and
interface yields the zone label, otherwise the empty string. -/
def find_zonefw_interface (device intf : String) (zonefw_interfaces : List ZoneIntf) : String :=
  match List.find? (fun z => z.hostname == device && z.intName == intf) zonefw_interfaces with
  | some z => " | " ++ pyJoin "/" z.zone
  | none => ""

/-- Embedding of get_security_event: keep a nonempty preexisting string,
otherwise build the severity and policy display string for a security
event, with the zone suffix when a truthy zone table was supplied. -/
def get_security_event (device_name egress : String) (zonefw : Option (List ZoneIntf))
    (event : Event) (security_info : String) : String :=
  if security_info ≠ "" then security_info
  else if pyIn "security" event.type then
    display_severity event.severityInfo.severity ++ " | " ++ event.decidingPolicyName
      ++ (if truthyList zonefw then
            find_zonefw_interface device_name egress (zonefw.getD []) else "")
  else ""

/-- Embedding of get_security_traces. The Python triple loop breaks out
once the string is nonempty; because get_security_event returns a
nonempty preexisting string unchanged, the break is an optimization and
the loop is a fold over the nested events. -/
def get_security_traces (device_name egress : String) (zonefw : Option (List ZoneIntf))
    (traces : List Trace) : String :=
  traces.foldl (fun si trace =>
    trace.foldl (fun si td =>
      td.events.foldl (fun si e => get_security_event device_name egress zonefw e si) si) si) ""

/-- Embedding of get_protocol_traces: scan every headerType of every
event of every step, short-circuit to l2 when some step uses the
switching chain, otherwise return the first entry of the priority list
present among the scanned headerTypes, or the not-available marker. -/
def get_protocol_traces (traces : List Trace) : String :=
  let list_header_type :=
    traces.flatMap (fun trace => trace.flatMap (fun td => td.events.map (fun e => e.headerType)))
  if (traces.flatMap (fun trace => trace.map (fun td => td.chain))).any
      (fun c => c == CHAIN_SWITCHING) then "l2"
  else
    match EVENT_HEADER_TYPE.find? (fun ht => list_header_type.any (fun h => h == ht)) with
    | some ht => ht
    | none => "n/a"

/-- Scan of get_edge_details for a vDevice id in the edge string when the
given device id is falsy on the first edge: embedding of the search for
the regular expression vDevice/ followed by one or more digits, returning
the whole leftmost match. -/
def findVDevice : List Char → Option String
  | [] => none
  | c :: rest =>
    match afterMatch? "vDevice/".toList (c :: rest) with
    | some after =>
      let ds := after.takeWhile Char.isDigit
      if ds.isEmpty then findVDevice rest
      else some ⟨"vDevice/".toList ++ ds⟩
    | none => findVDevice rest

/-- Embedding of the trace selection of get_edge_details: the records of
the device whose sourcePacketId equals the edge, and when that list is
empty (falsy in the Python or expression) the records whose
targetPacketId equals the edge. -/
def edge_traces (dd : DeviceDecision) (edge : String) : List Trace :=
  let src := (dd.traces.filter (fun t => t.sourcePacketId == edge)).map TraceRecord.trace
  let tgt := (dd.traces.filter (fun t => t.targetPacketId == edge)).map TraceRecord.trace
  if src.isEmpty then tgt else src

/-- Embedding of the tail of get_edge_details: the protocol column and,
when a security event was found, the security column. -/
def mk_device_info (device_name egress : String) (zonefw : Option (List ZoneIntf))
    (traces : List Trace) : String :=
  let security_info := get_security_traces device_name egress zonefw traces
  let protocol_info := get_protocol_traces traces
  " | " ++ protocol_info ++ (if security_info ≠ "" then " | " ++ security_info else "")

/-- Embedding of get_edge_details. A missing decision-table key raises
KeyError in Python, returned here as an error. -/
def get_edge_details (pathlookup_decisions : DecisionTable) (device_name : String)
    (device_id : Option String) (edge egress : String) (first_edge : Bool)
    (zonefw_interfaces : Option (List ZoneIntf)) : Except String String :=
  let device_id :=
    if first_edge && !(strOptTruthy device_id) then
      match findVDevice edge.toList with
      | some m => some m
      | none => device_id
    else device_id
  if strOptTruthy device_id then
    match dtFind pathlookup_decisions (device_id.getD "") with
    | none => .error "KeyError"
    | some dd =>
      .ok (mk_device_info device_name egress zonefw_interfaces (edge_traces dd edge))
  else .ok ""

/-- Placeholder row inserted by remove_exclusion_protocol for a skipped
run when l2_exclusion is set. -/
def l2_skip_marker : String := "... | ...l2/fp skipped... | ... | l2/fp"

/-- One iteration of the loop of remove_exclusion_protocol, over the pair
of index and entry. Interior entries that are not interface rows are kept
when free of the excluded protocols or carrying a security event, and are
otherwise collapsed into the marker unless the marker was just emitted;
the first and last entries are always appended verbatim. -/
def rexp_step (n : Nat) (marker : String) (result : List String) :
    Nat × String → List String
  | (i, entry) =>
    if 0 < i && i < n - 1 then
      if (L2_EXCLUSION_PROTOCOL.all (fun protocol => !(pyIn protocol entry))
            || pyIn "security" entry) && !(pyStartsWith entry " |") then
        result ++ [entry]
      else if !(pyStartsWith entry " |") then
        if result.getLast? = some marker then result else result ++ [marker]
      else result
    else result ++ [entry]

/-- Embedding of remove_exclusion_protocol as a fold of rexp_step over the
enumerated entries. The Python code reads result[-1], which raises on an
empty list; that state is unreachable because index 0 always appends, and
the embedding reads getLast? instead. -/
def remove_exclusion_protocol (graph_list : List String) (l2_exclusion : Bool) : List String :=
  let exclusion := if l2_exclusion then "l2/fp" else ""
  let marker := "... | ..." ++ exclusion ++ " skipped... | ... | " ++ exclusion
  (graph_list.enum).foldl (rexp_step graph_list.length marker) []

/-! ## Specification-side definitions -/

/-- Chain predicate of the linearizer specification: every element is a
key of the edge map, each element after the first is the first successor
of the edge of the element before it, and the edge of the last element
has no successors. -/
def chainFromB (g : PathGraph) : List String → Bool
  | [] => true
  | [x] =>
    match pgFind g x with
    | some e => e.nextEdgeIds.isEmpty
    | none => false
  | x :: y :: rest =>
    (match pgFind g x with
     | some e => e.nextEdgeIds.head? == some y
     | none => false) && chainFromB g (y :: rest)

/-- All events of a list of traces, flattened in scan order. -/
def allEvents (traces : List Trace) : List Event :=
  traces.flatMap (fun trace => trace.flatMap (fun td => td.events))

/-- Occurrence of a headerType among the events of a list of traces. -/
abbrev occursHT (traces : List Trace) (ht : String) : Prop :=
  ∃ trace ∈ traces, ∃ td ∈ trace, ∃ e ∈ td.events, e.headerType = ht

/-- Occurrence of a step with the switching chain in a list of traces. -/
abbrev occursSwitching (traces : List Trace) : Prop :=
  ∃ trace ∈ traces, ∃ td ∈ trace, td.chain = CHAIN_SWITCHING

/-- Iterated first-option successor, for stating acyclicity. -/
def iterSucc (g : PathGraph) : Nat → String → Option String
  | 0, k => some k
  | m + 1, k =>
    match next_edge_of g k with
    | some k' => iterSucc g m k'
    | none => none

/-- Decidable acyclicity of the first-option successor structure: no key
of the edge map returns to itself in one to length-many steps. Any cycle
of the deterministic successor map visits distinct keys, so its length is
at most the number of keys and this check is complete. -/
def noCycleB (g : PathGraph) : Bool :=
  (g.map Prod.fst).all fun k =>
    (List.range g.length).all fun m => iterSucc g (m + 1) k != some k

/-! ## Concrete instances used in witnesses and counterexamples -/

/-- Three-edge chain E1 to E2 to E3 without branching. -/
def exChain : PathGraph :=
  [("E1", ⟨"E1", ["E2"]⟩), ("E2", ⟨"E2", ["E3"]⟩), ("E3", ⟨"E3", []⟩)]

/-- One-edge graph whose only successor is an unresolved terminal token
that is not a key of the map, so the loop appends a synthetic resolved
element. -/
def exDrop : PathGraph :=
  [("vDevice/1!r1@eth0--x",
    ⟨"vDevice/1!r1@eth0--x", ["vDevice/1@ge-0/0/4.200--dropped--#0"]⟩)]

/-- Decision record holding a source match and a target match for the
same edge id, with different protocols, to observe which one is used. -/
def exDD : DeviceDecision :=
  ⟨[⟨"E1--E2", "X", [⟨"chainA", [⟨"forwarding", "ip", "", ⟨0⟩⟩]⟩]⟩,
    ⟨"Y", "E1--E2", [⟨"chainB", [⟨"forwarding", "mpls", "", ⟨0⟩⟩]⟩]⟩]⟩

/-- Decision table with the single device of exDD. -/
def exDec : DecisionTable := [("vDevice/1", exDD)]

/-! ## Helper lemmas -/

theorem data_append (a b : String) : (a ++ b).data = a.data ++ b.data := by
  cases a; cases b; rfl

theorem eq_empty_iff_data (s : String) : s = "" ↔ s.data = [] := by
  constructor
  · intro h; subst h; rfl
  · intro h
    cases s with
    | mk d => cases h; rfl

theorem append_ne_empty_left (a b : String) (h : a ≠ "") : a ++ b ≠ "" := by
  intro hc
  apply h
  rw [eq_empty_iff_data] at hc ⊢
  rw [data_append] at hc
  exact (List.append_eq_nil.mp hc).1

theorem display_severity_ne_empty (v : Int) : display_severity v ≠ "" := by
  unfold display_severity
  split
  · decide
  split
  · decide
  split
  · decide
  split
  · decide
  · decide

/-- Unfolding of the fuelled follow loop when no next edge is pending. -/
theorem follow_loop_none (g : PathGraph) (fuel : Nat) (prev : String)
    (acc : List (Option String)) :
    follow_loop g fuel none prev acc = some (.ok acc) := by
  cases fuel <;> rfl

/-- A find? over a decomposed list returns the first hit when everything
before it fails the predicate. -/
theorem find?_first {α : Type} (p : α → Bool) (pre : List α) (x : α) (post : List α)
    (hpre : ∀ h ∈ pre, p h = false) (hx : p x = true) :
    List.find? p (pre ++ x :: post) = some x := by
  induction pre with
  | nil => simpa [List.find?_cons_of_pos] using List.find?_cons_of_pos post hx
  | cons a l ih =>
    rw [List.cons_append, List.find?_cons_of_neg]
    · exact ih fun h hh => hpre h (List.mem_cons_of_mem a hh)
    · simp [hpre a (List.mem_cons_self a l)]

/-- Boolean scan of the header types of a trace list agrees with the
occurrence predicate. -/
theorem headerTypes_any_iff (traces : List Trace) (ht : String) :
    ((traces.flatMap fun trace =>
        trace.flatMap fun td => td.events.map fun e => e.headerType).any
      fun h => h == ht) = true ↔ occursHT traces ht := by
  simp only [List.any_eq_true, List.mem_flatMap, List.mem_map, beq_iff_eq, occursHT]
  constructor
  · rintro ⟨h, ⟨tr, htr, td, htd, e, he, hh⟩, rfl⟩
    exact ⟨tr, htr, td, htd, e, he, hh⟩
  · rintro ⟨tr, htr, td, htd, e, he, hh⟩
    exact ⟨e.headerType, ⟨tr, htr, td, htd, e, he, rfl⟩, hh⟩

/-- Boolean scan of the chains of a trace list agrees with the switching
occurrence predicate. -/
theorem chains_any_iff (traces : List Trace) :
    ((traces.flatMap fun trace => trace.map fun td => td.chain).any
      fun c => c == CHAIN_SWITCHING) = true ↔ occursSwitching traces := by
  simp only [List.any_eq_true, List.mem_flatMap, List.mem_map, beq_iff_eq, occursSwitching]
  constructor
  · rintro ⟨c, ⟨tr, htr, td, htd, hc⟩, rfl⟩
    exact ⟨tr, htr, td, htd, hc⟩
  · rintro ⟨tr, htr, td, htd, hc⟩
    exact ⟨td.chain, ⟨tr, htr, td, htd, rfl⟩, hc⟩

/-! ## Claim C2 -/

/-- C2: classification of protocol traces: any step on the switching
chain forces the label l2 regardless of other events; otherwise the
result is the first entry of the fixed priority list that occurs among
the scanned headerTypes of the events, and the not-available marker when
no entry of the list occurs. -/
theorem get_protocol_traces_spec (traces : List Trace) :
    (occursSwitching traces → get_protocol_traces traces = "l2") ∧
    (¬ occursSwitching traces →
      ((∀ ht ∈ EVENT_HEADER_TYPE, ¬ occursHT traces ht) →
          get_protocol_traces traces = "n/a") ∧
      (∀ pre ht post, EVENT_HEADER_TYPE = pre ++ ht :: post →
          occursHT traces ht → (∀ h ∈ pre, ¬ occursHT traces h) →
          get_protocol_traces traces = ht)) := by
  constructor
  · intro hsw
    have h := (chains_any_iff traces).mpr hsw
    simp only [get_protocol_traces, h, if_true]
  · intro hsw
    have h : ((traces.flatMap fun trace => trace.map fun td => td.chain).any
        fun c => c == CHAIN_SWITCHING) = false := by
      rw [Bool.eq_false_iff]
      intro hc
      exact hsw ((chains_any_iff traces).mp hc)
    constructor
    · intro hnone
      have hf : (EVENT_HEADER_TYPE.find? fun ht =>
          (traces.flatMap fun trace =>
            trace.flatMap fun td => td.events.map fun e => e.headerType).any
            fun hh => hh == ht) = none := by
        rw [List.find?_eq_none]
        intro x hx hax
        exact hnone x hx ((headerTypes_any_iff traces x).mp hax)
      simp only [get_protocol_traces, h, Bool.false_eq_true, if_false, hf]
    · intro pre ht post hsplit hocc hpre
      have hf : (EVENT_HEADER_TYPE.find? fun ht =>
          (traces.flatMap fun trace =>
            trace.flatMap fun td => td.events.map fun e => e.headerType).any
            fun hh => hh == ht) = some ht := by
        rw [hsplit]
        apply find?_first
        · intro x hx
          rw [Bool.eq_false_iff]
          intro hax
          exact hpre x hx ((headerTypes_any_iff traces x).mp hax)
        · exact (headerTypes_any_iff traces ht).mpr hocc
      simp only [get_protocol_traces, h, Bool.false_eq_true, if_false, hf]

/-- Witness for C2: a switching step yields l2 even with a plain ip
event present, and traces carrying an ip event before a gre event yield
gre, the entry that comes first in the priority list, not the headerType
of the earliest event. -/
theorem get_protocol_traces_spec_witness :
    get_protocol_traces [[⟨"switching-nexthop", [⟨"t", "ip", "", ⟨0⟩⟩]⟩]] = "l2" ∧
    get_protocol_traces [[⟨"routing", [⟨"t", "ip", "", ⟨0⟩⟩, ⟨"t", "gre", "", ⟨0⟩⟩]⟩]] = "gre" := by
  constructor
  · exact (get_protocol_traces_spec _).1 (by decide)
  · exact ((get_protocol_traces_spec _).2 (by decide)).2
      ["vxlan", "capwap"] "gre" ["esp", "mpls", "ip", "fp"] rfl (by decide) (by decide)

/-! ## Claim C3 -/

/-- A fold over a flattened list equals the nested fold. -/
theorem foldl_flatMap {α β γ : Type} (f : γ → β → γ) (g : α → List β) :
    ∀ (l : List α) (init : γ),
      (l.flatMap g).foldl f init = l.foldl (fun acc x => (g x).foldl f acc) init := by
  intro l
  induction l with
  | nil => intro init; rfl
  | cons a t ih =>
    intro init
    simp only [List.flatMap_cons, List.foldl_append, List.foldl_cons]
    exact ih _

/-- The triple loop of get_security_traces is the fold of
get_security_event over the flattened event list. -/
theorem get_security_traces_eq_flat (dn eg : String) (z : Option (List ZoneIntf))
    (traces : List Trace) :
    get_security_traces dn eg z traces =
      (allEvents traces).foldl (fun si e => get_security_event dn eg z e si) "" := by
  unfold get_security_traces allEvents
  rw [foldl_flatMap]
  congr 1
  funext si tr
  rw [foldl_flatMap]

/-- A nonempty security string is preserved by get_security_event. -/
theorem get_security_event_keep (dn eg : String) (z : Option (List ZoneIntf)) (e : Event)
    (si : String) (h : si ≠ "") : get_security_event dn eg z e si = si := by
  unfold get_security_event
  rw [if_pos h]

/-- A nonempty security string is preserved by the whole event fold. -/
theorem foldl_sec_keep (dn eg : String) (z : Option (List ZoneIntf)) (L : List Event)
    (si : String) (h : si ≠ "") :
    L.foldl (fun si e => get_security_event dn eg z e si) si = si := by
  induction L with
  | nil => rfl
  | cons e t ih =>
    simp only [List.foldl_cons]
    rw [get_security_event_keep dn eg z e si h]
    exact ih

/-- Folding over events without a security type leaves the empty string. -/
theorem foldl_sec_nonsec (dn eg : String) (z : Option (List ZoneIntf)) (L : List Event)
    (h : ∀ e ∈ L, pyIn "security" e.type = false) :
    L.foldl (fun si e => get_security_event dn eg z e si) "" = "" := by
  induction L with
  | nil => rfl
  | cons e t ih =>
    simp only [List.foldl_cons]
    have he : get_security_event dn eg z e "" = "" := by
      unfold get_security_event
      rw [if_neg (by simp), if_neg]
      simp [h e (List.mem_cons_self e t)]
    rw [he]
    exact ih fun x hx => h x (List.mem_cons_of_mem e hx)

/-- Unfolding of get_security_event on a fresh security event. -/
theorem get_security_event_hit (dn eg : String) (z : Option (List ZoneIntf)) (e : Event)
    (h : pyIn "security" e.type = true) :
    get_security_event dn eg z e "" =
      display_severity e.severityInfo.severity ++ " | " ++ e.decidingPolicyName ++
        (if truthyList z then find_zonefw_interface dn eg (z.getD []) else "") := by
  unfold get_security_event
  rw [if_neg (by simp), if_pos h]

/-- C3: scanning events in nested order, the first event whose type
contains the word security determines the output, which combines the
severity symbol of that event with its deciding policy name and the
optional zone suffix; when no event type contains the word, the security
field stays empty and nothing is raised. -/
theorem get_security_traces_spec (dn eg : String) (z : Option (List ZoneIntf))
    (traces : List Trace) :
    ((∀ e ∈ allEvents traces, pyIn "security" e.type = false) →
        get_security_traces dn eg z traces = "") ∧
    (∀ pre e post, allEvents traces = pre ++ e :: post →
        (∀ x ∈ pre, pyIn "security" x.type = false) →
        pyIn "security" e.type = true →
        get_security_traces dn eg z traces =
          display_severity e.severityInfo.severity ++ " | " ++ e.decidingPolicyName ++
            (if truthyList z then find_zonefw_interface dn eg (z.getD []) else "")) := by
  constructor
  · intro h
    rw [get_security_traces_eq_flat]
    exact foldl_sec_nonsec dn eg z _ h
  · intro pre e post heq hpre he
    rw [get_security_traces_eq_flat, heq, List.foldl_append]
    rw [foldl_sec_nonsec dn eg z pre hpre]
    simp only [List.foldl_cons]
    rw [get_security_event_hit dn eg z e he]
    exact foldl_sec_keep dn eg z post _
      (append_ne_empty_left _ _
        (append_ne_empty_left _ _
          (append_ne_empty_left _ _ (display_severity_ne_empty _))))

/-- Witness for C3: a trace of one non-security event followed by a
blocking security event with policy blockAll yields a string that
contains the blocking symbol and the policy name. -/
theorem get_security_traces_spec_witness :
    get_security_traces "h1" "eth0" none
        [[⟨"zone-fw", [⟨"routing", "ip", "", ⟨0⟩⟩,
                       ⟨"security check", "", "blockAll", ⟨30⟩⟩]⟩]] = "❌ | blockAll" ∧
    pyIn "❌" "❌ | blockAll" = true ∧ pyIn "blockAll" "❌ | blockAll" = true := by
  refine ⟨?_, by decide, by decide⟩
  have h := (get_security_traces_spec "h1" "eth0" none
      [[⟨"zone-fw", [⟨"routing", "ip", "", ⟨0⟩⟩,
                     ⟨"security check", "", "blockAll", ⟨30⟩⟩]⟩]]).2
      [⟨"routing", "ip", "", ⟨0⟩⟩] ⟨"security check", "", "blockAll", ⟨30⟩⟩ [] rfl
      (by decide) (by decide)
  rw [h]
  decide

/-! ## Claim C4 -/

/-- C4: trace selection of get_edge_details for a device present in the
decision table: when some record of the device matches the edge on
sourcePacketId, the selected traces are exactly the source matches; the
target matches are used only when no source match exists; and
get_edge_details classifies exactly the selected traces. -/
theorem get_edge_details_lookup (dec : DecisionTable) (dn d : String)
    (dd : DeviceDecision) (edge eg : String) (fe : Bool) (z : Option (List ZoneIntf))
    (hd : d ≠ "") (hdd : dtFind dec d = some dd) :
    ((∃ r ∈ dd.traces, r.sourcePacketId = edge) →
      edge_traces dd edge =
        (dd.traces.filter fun r => r.sourcePacketId == edge).map TraceRecord.trace) ∧
    ((∀ r ∈ dd.traces, r.sourcePacketId ≠ edge) →
      edge_traces dd edge =
        (dd.traces.filter fun r => r.targetPacketId == edge).map TraceRecord.trace) ∧
    get_edge_details dec dn (some d) edge eg fe z =
      .ok (mk_device_info dn eg z (edge_traces dd edge)) := by
  refine ⟨?_, ?_, ?_⟩
  · rintro ⟨r, hr, hre⟩
    have hne : (dd.traces.filter fun t => t.sourcePacketId == edge) ≠ [] :=
      List.ne_nil_of_mem (List.mem_filter.mpr ⟨hr, by simp [hre]⟩)
    simp only [edge_traces]
    rw [if_neg]
    simp only [List.isEmpty_iff, List.map_eq_nil_iff]
    exact hne
  · intro h
    have hnil : (dd.traces.filter fun t => t.sourcePacketId == edge) = [] := by
      rw [List.filter_eq_nil_iff]
      intro a ha
      simp [h a ha]
    simp only [edge_traces]
    rw [if_pos]
    simp [List.isEmpty_iff, hnil]
  · have ht : strOptTruthy (some d) = true := by simp [strOptTruthy, hd]
    simp only [get_edge_details, ht, Bool.not_true, Bool.and_false, Bool.false_eq_true,
      if_false, if_true, Option.getD_some, hdd]

/-- Witness for C4: in exDD the record matching the edge on
sourcePacketId carries protocol ip and the record matching only on
targetPacketId carries mpls; the selected traces and the resulting edge
details come from the source match alone. -/
theorem get_edge_details_lookup_witness :
    edge_traces exDD "E1--E2" = [[⟨"chainA", [⟨"forwarding", "ip", "", ⟨0⟩⟩]⟩]] ∧
    get_edge_details exDec "h1" (some "vDevice/1") "E1--E2" "eth0" false none =
      .ok " | ip" := by
  have h := get_edge_details_lookup exDec "h1" "vDevice/1" exDD "E1--E2" "eth0" false none
    (by decide) rfl
  constructor
  · rw [h.1 ⟨⟨"E1--E2", "X", [⟨"chainA", [⟨"forwarding", "ip", "", ⟨0⟩⟩]⟩]⟩,
        by decide, rfl⟩]
    rfl
  · rw [h.2.2]
    rfl

/-! ## Claim C5 -/

/-- With the exclusion flag set, the marker built by
remove_exclusion_protocol is the l2 skip marker and the function is the
fold of rexp_step. -/
theorem rexp_true_eq (gl : List String) :
    remove_exclusion_protocol gl true =
      (gl.enum).foldl (rexp_step gl.length l2_skip_marker) [] := rfl

/-- Case characterization of one iteration of the exclusion loop: the
entry is appended, or the marker is appended under the guard that the
marker is not already last, or the accumulator is kept. -/
theorem rexp_step_cases (n : Nat) (M : String) (acc : List String) (i : Nat) (x : String) :
    rexp_step n M acc (i, x) = acc ++ [x] ∨
    (rexp_step n M acc (i, x) = acc ++ [M] ∧ acc.getLast? ≠ some M) ∨
    rexp_step n M acc (i, x) = acc := by
  simp only [rexp_step]
  by_cases h1 : (decide (0 < i) && decide (i < n - 1)) = true
  · rw [if_pos h1]
    by_cases h2 : (((L2_EXCLUSION_PROTOCOL.all fun protocol => !pyIn protocol x)
        || pyIn "security" x) && !pyStartsWith x " |") = true
    · rw [if_pos h2]
      exact Or.inl rfl
    · rw [if_neg h2]
      by_cases h3 : (!pyStartsWith x " |") = true
      · rw [if_pos h3]
        by_cases h4 : acc.getLast? = some M
        · rw [if_pos h4]
          exact Or.inr (Or.inr rfl)
        · rw [if_neg h4]
          exact Or.inr (Or.inl ⟨rfl, h4⟩)
      · rw [if_neg h3]
        exact Or.inr (Or.inr rfl)
  · rw [if_neg h1]
    exact Or.inl rfl

/-- Every iteration of the exclusion loop either keeps the accumulator or
appends exactly one element. -/
theorem rexp_step_shape (n : Nat) (M : String) (acc : List String) (ie : Nat × String) :
    rexp_step n M acc ie = acc ∨ ∃ x, rexp_step n M acc ie = acc ++ [x] := by
  obtain ⟨i, x⟩ := ie
  rcases rexp_step_cases n M acc i x with heq | ⟨heq, _⟩ | heq
  · exact Or.inr ⟨x, heq⟩
  · exact Or.inr ⟨M, heq⟩
  · exact Or.inl heq

/-- An interior entry that contains an excluded protocol, carries no
security event and is not an interface row is collapsed: the loop
appends the marker unless the marker was just appended. -/
theorem rexp_step_excluded (n : Nat) (M : String) (acc : List String) (i : Nat) (x : String)
    (hi0 : 0 < i) (hin : i < n - 1)
    (hl2 : pyIn "l2" x = true ∨ pyIn "fp" x = true)
    (hsec : pyIn "security" x = false)
    (hpref : pyStartsWith x " |" = false) :
    rexp_step n M acc (i, x) = if acc.getLast? = some M then acc else acc ++ [M] := by
  have hall : (L2_EXCLUSION_PROTOCOL.all fun protocol => !(pyIn protocol x)) = false := by
    rcases hl2 with h | h <;> simp [L2_EXCLUSION_PROTOCOL, h]
  simp only [rexp_step]
  rw [if_pos (by simp [hi0, hin]), if_neg (by simp [hall, hsec, hpref]),
    if_pos (by simp [hpref])]

/-- A first or last entry is appended verbatim by the exclusion loop. -/
theorem rexp_step_edge (n : Nat) (M : String) (acc : List String) (i : Nat) (x : String)
    (h : ¬(0 < i ∧ i < n - 1)) :
    rexp_step n M acc (i, x) = acc ++ [x] := by
  simp only [rexp_step]
  rw [if_neg (show ¬((decide (0 < i) && decide (i < n - 1)) = true) by
    simp only [Bool.and_eq_true, decide_eq_true_eq]
    exact h)]

/-- Folding the exclusion loop over further entries never changes the
head of a nonempty accumulator and never empties it. -/
theorem rexp_head (n : Nat) (M : String) :
    ∀ (ps : List (Nat × String)) (acc : List String), acc ≠ [] →
      (ps.foldl (rexp_step n M) acc).head? = acc.head? ∧
        ps.foldl (rexp_step n M) acc ≠ [] := by
  intro ps
  induction ps with
  | nil => exact fun acc h => ⟨rfl, h⟩
  | cons p t ih =>
    intro acc h
    simp only [List.foldl_cons]
    rcases rexp_step_shape n M acc p with heq | ⟨x, heq⟩
    · rw [heq]
      exact ih acc h
    · rw [heq]
      have h2 := ih (acc ++ [x]) (by simp)
      refine ⟨h2.1.trans ?_, h2.2⟩
      cases acc with
      | nil => exact absurd rfl h
      | cons a t2 => rfl

/-- A chain without adjacent repetitions of a value survives appending an
element that is not that value or is guarded by the last element. -/
theorem chain'_concat_of {R : String → String → Prop} (l : List String) (x : String)
    (hl : List.Chain' R l) (hx : ∀ a, l.getLast? = some a → R a x) :
    List.Chain' R (l ++ [x]) := by
  rw [List.chain'_append]
  refine ⟨hl, List.chain'_singleton x, ?_⟩
  intro a ha b hb
  obtain rfl : x = b := by simpa using hb
  exact hx a (by simpa using ha)

/-- The exclusion loop never writes the marker twice in a row when no
input entry equals the marker. -/
theorem rexp_step_chain (n : Nat) (M : String) (acc : List String) (p : Nat × String)
    (hacc : List.Chain' (fun a b => ¬(a = M ∧ b = M)) acc) (hp : p.2 ≠ M) :
    List.Chain' (fun a b => ¬(a = M ∧ b = M)) (rexp_step n M acc p) := by
  obtain ⟨i, x⟩ := p
  rcases rexp_step_cases n M acc i x with heq | ⟨heq, hlast⟩ | heq
  · rw [heq]
    exact chain'_concat_of _ _ hacc fun a _ hc => hp hc.2
  · rw [heq]
    exact chain'_concat_of _ _ hacc fun a ha hc => hlast (hc.1 ▸ ha)
  · rw [heq]
    exact hacc

/-- Chain preservation along the whole fold of the exclusion loop. -/
theorem rexp_fold_chain (n : Nat) (M : String) :
    ∀ (ps : List (Nat × String)) (acc : List String),
      List.Chain' (fun a b => ¬(a = M ∧ b = M)) acc →
      (∀ p ∈ ps, p.2 ≠ M) →
      List.Chain' (fun a b => ¬(a = M ∧ b = M)) (ps.foldl (rexp_step n M) acc) := by
  intro ps
  induction ps with
  | nil => exact fun acc h _ => h
  | cons p t ih =>
    intro acc hacc hps
    simp only [List.foldl_cons]
    exact ih _ (rexp_step_chain n M acc p hacc (hps p (List.mem_cons_self p t)))
      fun q hq => hps q (List.mem_cons_of_mem p hq)

/-- Second components of an enumeration are entries of the list. -/
theorem snd_mem_of_mem_enumFrom {α : Type} :
    ∀ (l : List α) (k : Nat) (p : Nat × α), p ∈ List.enumFrom k l → p.2 ∈ l := by
  intro l
  induction l with
  | nil => intro k p h; cases h
  | cons a t ih =>
    intro k p h
    rcases List.mem_cons.mp h with rfl | h
    · exact List.mem_cons_self a t
    · exact List.mem_cons_of_mem a (ih (k + 1) p h)

/-- C5: the collapse of pure L2 hops with the exclusion flag set: the
first and last records are always preserved, the marker is never emitted
twice in a row, and a five-record list whose three interior records all
contain an excluded protocol without a security event collapses to the
first record, one marker and the last record. -/
theorem remove_exclusion_protocol_spec :
    (∀ gl : List String, (remove_exclusion_protocol gl true).head? = gl.head?) ∧
    (∀ gl : List String, (remove_exclusion_protocol gl true).getLast? = gl.getLast?) ∧
    (∀ gl : List String, (∀ e ∈ gl, e ≠ l2_skip_marker) →
      List.Chain' (fun x y => ¬(x = l2_skip_marker ∧ y = l2_skip_marker))
        (remove_exclusion_protocol gl true)) ∧
    (∀ a b c d f : String,
      (∀ x ∈ [b, c, d], (pyIn "l2" x = true ∨ pyIn "fp" x = true) ∧
        pyIn "security" x = false ∧ pyStartsWith x " |" = false) →
      a ≠ l2_skip_marker →
      remove_exclusion_protocol [a, b, c, d, f] true = [a, l2_skip_marker, f]) := by
  refine ⟨?_, ?_, ?_, ?_⟩
  · intro gl
    cases gl with
    | nil => rfl
    | cons x rest =>
      rw [rexp_true_eq, List.enum_cons]
      simp only [List.foldl_cons]
      have h1 : rexp_step (x :: rest).length l2_skip_marker [] (0, x) = [x] :=
        rexp_step_edge _ _ _ _ _ (by omega)
      rw [h1]
      exact (rexp_head _ _ _ [x] (by simp)).1
  · intro gl
    rcases List.eq_nil_or_concat gl with rfl | ⟨init, a, rfl⟩
    · rfl
    · rw [List.concat_eq_append, rexp_true_eq, List.enum_append, List.foldl_append]
      simp only [List.enumFrom, List.foldl_cons, List.foldl_nil]
      rw [rexp_step_edge _ _ _ _ _ (by simp [List.length_append])]
      rw [List.getLast?_concat, List.getLast?_concat]
  · intro gl h
    rw [rexp_true_eq]
    apply rexp_fold_chain
    · exact List.chain'_nil
    · intro p hp
      exact h p.2 (snd_mem_of_mem_enumFrom gl 0 p hp)
  · intro a b c d f hx ha
    have hb := hx b (by simp)
    have hc := hx c (by simp)
    have hd := hx d (by simp)
    have s0 : rexp_step 5 l2_skip_marker [] (0, a) = [a] := by
      rw [rexp_step_edge 5 l2_skip_marker [] 0 a (by omega)]
      rfl
    have s1 : rexp_step 5 l2_skip_marker [a] (1, b) = [a, l2_skip_marker] := by
      rw [rexp_step_excluded 5 l2_skip_marker [a] 1 b (by omega) (by omega)
        hb.1 hb.2.1 hb.2.2]
      rw [if_neg (by simpa using ha)]
      rfl
    have s2 : rexp_step 5 l2_skip_marker [a, l2_skip_marker] (2, c) = [a, l2_skip_marker] := by
      rw [rexp_step_excluded 5 l2_skip_marker [a, l2_skip_marker] 2 c (by omega) (by omega)
        hc.1 hc.2.1 hc.2.2]
      rw [if_pos (by simp)]
    have s3 : rexp_step 5 l2_skip_marker [a, l2_skip_marker] (3, d) = [a, l2_skip_marker] := by
      rw [rexp_step_excluded 5 l2_skip_marker [a, l2_skip_marker] 3 d (by omega) (by omega)
        hd.1 hd.2.1 hd.2.2]
      rw [if_pos (by simp)]
    have s4 : rexp_step 5 l2_skip_marker [a, l2_skip_marker] (4, f) =
        [a, l2_skip_marker, f] := by
      rw [rexp_step_edge 5 l2_skip_marker [a, l2_skip_marker] 4 f (by omega)]
      rfl
    rw [rexp_true_eq]
    have h5 : ([a, b, c, d, f] : List String).length = 5 := rfl
    have he : ([a, b, c, d, f].enum) = [(0, a), (1, b), (2, c), (3, d), (4, f)] := rfl
    rw [h5, he]
    simp only [List.foldl_cons, List.foldl_nil, s0, s1, s2, s3, s4]

/-- Witness for C5: a concrete five-hop list whose interior hops are pure
L2 rows without security events collapses to three records. -/
theorem remove_exclusion_protocol_spec_witness :
    remove_exclusion_protocol
      ["- | h1 | eth0 | ip", "eth1 | sw1 | eth2 | l2", "eth2 | sw2 | eth3 | l2",
       "eth3 | sw3 | eth4 | fp", "eth9 | h2 | - | ip"] true =
      ["- | h1 | eth0 | ip", l2_skip_marker, "eth9 | h2 | - | ip"] := by
  apply remove_exclusion_protocol_spec.2.2.2
  · decide
  · decide

/-! ## Claim C1 -/

/-- Under the key-id agreement a successful lookup returns an edge whose
id is the key. -/
theorem pgFind_id (g : PathGraph) (hwf : ∀ p ∈ g, p.2.id = p.1) (k : String) (e : Edge)
    (h : pgFind g k = some e) : e.id = k := by
  unfold pgFind at h
  rcases Option.map_eq_some'.mp h with ⟨p, hp, rfl⟩
  have hk : p.1 = k := by simpa using List.find?_some hp
  rw [hwf p (List.mem_of_find?_eq_some hp), hk]

/-- A nonempty specification chain starts at a key of the map. -/
theorem chainFromB_head_find (g : PathGraph) (y : String) (l : List String)
    (h : chainFromB g (y :: l) = true) : ∃ e, pgFind g y = some e := by
  cases l with
  | nil =>
    simp only [chainFromB] at h
    cases hf : pgFind g y with
    | none => rw [hf] at h; simp at h
    | some e => exact ⟨e, rfl⟩
  | cons z t =>
    simp only [chainFromB] at h
    cases hf : pgFind g y with
    | none => rw [hf] at h; simp at h
    | some e => exact ⟨e, rfl⟩

/-- The follow loop reproduces a specification chain: starting after the
edge of x, with enough fuel it appends exactly the rest of the chain and
stops on the empty successor list of the last element. -/
theorem follow_loop_of_chain (g : PathGraph) (hwf : ∀ p ∈ g, p.2.id = p.1) :
    ∀ (rest : List String) (x : String) (e : Edge) (acc : List (Option String)) (fuel : Nat),
      rest.length ≤ fuel → pgFind g x = some e → chainFromB g (x :: rest) = true →
      follow_loop g fuel e.nextEdgeIds.head? x acc = some (.ok (acc ++ rest.map some)) := by
  intro rest
  induction rest with
  | nil =>
    intro x e acc fuel _ hf hc
    simp only [chainFromB, hf] at hc
    have hnil : e.nextEdgeIds = [] := by simpa using hc
    rw [hnil]
    simp [follow_loop_none]
  | cons y rest' ih =>
    intro x e acc fuel hfuel hf hc
    simp only [chainFromB, hf, Bool.and_eq_true] at hc
    have hhead : e.nextEdgeIds.head? = some y := by simpa using hc.1
    have hc2 : chainFromB g (y :: rest') = true := hc.2
    obtain ⟨e2, hf2⟩ := chainFromB_head_find g y rest' hc2
    have hid : e2.id = y := pgFind_id g hwf y e2 hf2
    cases fuel with
    | zero =>
      simp only [List.length_cons] at hfuel
      omega
    | succ f =>
      rw [hhead]
      simp only [follow_loop, hf2]
      have hnx : next_edge_of g y = e2.nextEdgeIds.head? := by
        simp [next_edge_of, hf2]
      rw [hnx, hid]
      rw [ih y e2 (acc ++ [some y]) f (by simp at hfuel; omega) hf2 hc2]
      simp

/-- C1: for a nonempty edge map whose keys agree with the edge ids, the
linearizer output is exactly the specification chain: its first element
is the id of the first-inserted edge, every later element is entry 0 of
the successor list of the edge of the previous element, and the walk
stops at the first edge whose successor list is empty. -/
theorem follow_path_first_option_spec (g : PathGraph) (k0 : String) (e0 : Edge)
    (g' : PathGraph) (l : List String)
    (hg : g = (k0, e0) :: g') (hwf : ∀ p ∈ g, p.2.id = p.1)
    (hhead : l.head? = some e0.id) (hchain : chainFromB g l = true) :
    follow_path_first_option g l.length = some (.ok (some (l.map some))) := by
  subst hg
  cases l with
  | nil => simp at hhead
  | cons x rest =>
    have hx : x = e0.id := by simpa using hhead
    subst hx
    have hk : e0.id = k0 := hwf (k0, e0) (List.mem_cons_self _ _)
    have hf : pgFind ((k0, e0) :: g') e0.id = some e0 := by
      rw [hk]
      simp [pgFind, List.find?]
    simp only [follow_path_first_option]
    rw [follow_loop_of_chain ((k0, e0) :: g') hwf rest e0.id e0 [some e0.id]
      ((e0.id :: rest).length) (by simp) hf hchain]
    rfl

/-- Witness for C1: on the three-edge chain the linearizer returns the
three edge ids in order. -/
theorem follow_path_first_option_spec_witness :
    follow_path_first_option exChain 3 =
      some (.ok (some [some "E1", some "E2", some "E3"])) := by
  have h := follow_path_first_option_spec exChain "E1" ⟨"E1", ["E2"]⟩
    [("E2", ⟨"E2", ["E3"]⟩), ("E3", ⟨"E3", []⟩)] ["E1", "E2", "E3"]
    rfl (by decide) rfl (by decide)
  simpa using h

/-! ## Claim C8 -/

/-- Single unfolding of the successor iterate. -/
theorem iterSucc_succ (g : PathGraph) (m : Nat) (k : String) :
    iterSucc g (m + 1) k =
      match next_edge_of g k with
      | some k' => iterSucc g m k'
      | none => none := rfl

/-- Appending one successor step to an iterate. -/
theorem iterSucc_snoc (g : PathGraph) :
    ∀ (j : Nat) (a b c : String), iterSucc g j a = some b → next_edge_of g b = some c →
      iterSucc g (j + 1) a = some c := by
  intro j
  induction j with
  | zero =>
    intro a b c ha hb
    have hab : a = b := by simpa [iterSucc] using ha
    subst hab
    rw [iterSucc_succ, hb]
    rfl
  | succ n ih =>
    intro a b c ha hb
    rw [iterSucc_succ] at ha
    rw [iterSucc_succ]
    cases hn : next_edge_of g a with
    | none =>
      rw [hn] at ha
      exact Option.noConfusion ha
    | some a' =>
      rw [hn] at ha
      have ha' : iterSucc g n a' = some b := ha
      exact ih a' b c ha' hb

/-- Membership in a successor chain yields an iterate reaching the last
element of the chain in fewer steps than its length. -/
theorem chain_mem_iter (g : PathGraph) :
    ∀ (V : List String), List.Chain' (fun a b => next_edge_of g a = some b) V →
      ∀ a ∈ V, ∃ j b, V.getLast? = some b ∧ iterSucc g j a = some b ∧ j < V.length := by
  intro V
  induction V with
  | nil => intro _ a ha; cases ha
  | cons x t ih =>
    intro hch a ha
    cases t with
    | nil =>
      rcases List.mem_singleton.mp ha with rfl
      exact ⟨0, a, rfl, rfl, by simp⟩
    | cons y t' =>
      have hxy : next_edge_of g x = some y := (List.chain'_cons.mp hch).1
      have hch' := (List.chain'_cons.mp hch).2
      rcases List.mem_cons.mp ha with rfl | ha'
      · obtain ⟨j, b, hlast, hiter, hj⟩ := ih hch' y (List.mem_cons_self y t')
        refine ⟨j + 1, b, by simpa using hlast, ?_, ?_⟩
        · rw [iterSucc_succ, hxy]
          exact hiter
        · simp only [List.length_cons] at hj ⊢
          omega
      · obtain ⟨j, b, hlast, hiter, hj⟩ := ih hch' a ha'
        refine ⟨j, b, by simpa using hlast, hiter, ?_⟩
        simp only [List.length_cons] at hj ⊢
        omega

/-- Extraction from the decidable acyclicity check. -/
theorem noCycle_no_return (g : PathGraph) (hnc : noCycleB g = true) (k : String)
    (hk : k ∈ g.map Prod.fst) (m : Nat) (hm : m < g.length) :
    iterSucc g (m + 1) k ≠ some k := by
  have h1 := (List.all_eq_true.mp hnc) k hk
  have h2 := (List.all_eq_true.mp h1) m (List.mem_range.mpr hm)
  simpa using h2

/-- A duplicate-free list contained in another list is no longer. -/
theorem nodup_subset_length (V W : List String) (hn : V.Nodup) (hs : ∀ v ∈ V, v ∈ W) :
    V.length ≤ W.length :=
  (hn.subperm fun _ hv => hs _ hv).length_le

/-- Totality of the follow loop on acyclic maps: with fuel covering the
unvisited keys the loop always finishes, and any normally returned list
gains at most one element beyond the remaining distinct keys. The list V
is the chain of keys already followed. -/
theorem follow_loop_total (g : PathGraph) (hnc : noCycleB g = true) :
    ∀ (fuel : Nat) (V : List String) (next : Option String) (prev : String)
      (acc : List (Option String)),
      V ≠ [] →
      V.Nodup →
      (∀ v ∈ V, v ∈ g.map Prod.fst) →
      List.Chain' (fun a b => next_edge_of g a = some b) V →
      (∀ nid, next = some nid → ∃ b, V.getLast? = some b ∧ next_edge_of g b = some nid) →
      g.length + 1 - V.length ≤ fuel →
      ∃ r, follow_loop g fuel next prev acc = some r ∧
        ∀ l, r = .ok l → l.length ≤ acc.length + (g.length - V.length) + 1 := by
  intro fuel
  induction fuel with
  | zero =>
    intro V next prev acc hVne hVnd hVsub hVch hnext hfuel
    have hlen : V.length ≤ g.length := by
      have h := nodup_subset_length V (g.map Prod.fst) hVnd hVsub
      simpa using h
    omega
  | succ f ihf =>
    intro V next prev acc hVne hVnd hVsub hVch hnext hfuel
    have hlen : V.length ≤ g.length := by
      have h := nodup_subset_length V (g.map Prod.fst) hVnd hVsub
      simpa using h
    cases next with
    | none =>
      refine ⟨.ok acc, by rw [follow_loop_none], ?_⟩
      rintro l hl
      injection hl with h
      subst h
      omega
    | some nid =>
      obtain ⟨b, hlastb, hstep⟩ := hnext nid rfl
      have hnidV : nid ∉ V := by
        intro hmem
        obtain ⟨j, b', hlast', hiter, hj⟩ := chain_mem_iter g V hVch nid hmem
        rw [hlastb] at hlast'
        obtain rfl : b = b' := Option.some.inj hlast'
        have hit : iterSucc g (j + 1) nid = some nid := iterSucc_snoc g j nid b nid hiter hstep
        exact noCycle_no_return g hnc nid (hVsub nid hmem) j (lt_of_lt_of_le hj hlen) hit
      cases hfind : pgFind g nid with
      | some e =>
        have hnidKeys : nid ∈ g.map Prod.fst := by
          unfold pgFind at hfind
          rcases Option.map_eq_some'.mp hfind with ⟨p, hp, rfl⟩
          have hp1 : p.1 = nid := by simpa using List.find?_some hp
          exact hp1 ▸ List.mem_map_of_mem Prod.fst (List.mem_of_find?_eq_some hp)
        have hnd' : (V ++ [nid]).Nodup := by
          rw [List.nodup_append]
          refine ⟨hVnd, List.nodup_singleton nid, ?_⟩
          intro a ha hb
          rcases List.mem_singleton.mp hb with rfl
          exact hnidV ha
        have hsub' : ∀ v ∈ V ++ [nid], v ∈ g.map Prod.fst := by
          intro v hv
          rcases List.mem_append.mp hv with h | h
          · exact hVsub v h
          · rcases List.mem_singleton.mp h with rfl
            exact hnidKeys
        have hlt : V.length < g.length := by
          have h2 := nodup_subset_length (V ++ [nid]) (g.map Prod.fst) hnd' hsub'
          simp only [List.length_append, List.length_singleton, List.length_map] at h2
          omega
        have hch' : List.Chain' (fun a b => next_edge_of g a = some b) (V ++ [nid]) :=
          chain'_concat_of V nid hVch fun a ha => by
            rw [hlastb] at ha
            obtain rfl : b = a := Option.some.inj ha
            exact hstep
        have hnext' : ∀ m, next_edge_of g nid = some m →
            ∃ b', (V ++ [nid]).getLast? = some b' ∧ next_edge_of g b' = some m := by
          intro m hm
          exact ⟨nid, List.getLast?_concat V, hm⟩
        obtain ⟨r, hr, hbnd⟩ := ihf (V ++ [nid]) (next_edge_of g nid) nid (acc ++ [some e.id])
          (by simp) hnd' hsub' hch' hnext'
          (by simp only [List.length_append, List.length_singleton]; omega)
        refine ⟨r, ?_, ?_⟩
        · simp only [follow_loop, hfind]
          exact hr
        · intro l hl
          have hb2 := hbnd l hl
          simp only [List.length_append, List.length_singleton] at hb2
          omega
      | none =>
        cases hpfind : pgFind g prev with
        | none =>
          refine ⟨.error "KeyError", ?_, ?_⟩
          · simp only [follow_loop, hfind, hpfind]
          · rintro l hl
            cases hl
        | some pe =>
          cases hrep : replace_vdevice_id pe with
          | error msg =>
            refine ⟨.error msg, ?_, ?_⟩
            · simp only [follow_loop, hfind, hpfind, hrep]
            · rintro l hl
              cases hl
          | ok v =>
            refine ⟨.ok (acc ++ [v]), ?_, ?_⟩
            · simp only [follow_loop, hfind, hpfind, hrep]
              have hne : next_edge_of g nid = none := by simp [next_edge_of, hfind]
              rw [hne, follow_loop_none]
            · rintro l hl
              injection hl with h
              subst h
              simp only [List.length_append, List.length_singleton]
              omega

/-- C8 amended: on a duplicate-free acyclic edge map the follow loop
terminates with an outcome (a value or a raised error), and any normally
returned sequence has length at most the number of distinct edges plus
one, the possible extra element being the synthetic resolved terminal
token. -/
theorem follow_path_first_option_total (g : PathGraph)
    (hk : (g.map Prod.fst).Nodup) (hnc : noCycleB g = true) :
    ∃ r, follow_path_first_option g (g.length + 1) = some r ∧
      ∀ l, r = .ok (some l) → l.length ≤ g.length + 1 := by
  cases g with
  | nil =>
    refine ⟨.ok none, rfl, ?_⟩
    rintro l hl
    injection hl with h
    cases h
  | cons p g' =>
    obtain ⟨k0, e0⟩ := p
    have hf0 : pgFind ((k0, e0) :: g') k0 = some e0 := by
      simp [pgFind, List.find?]
    obtain ⟨r, hr, hbnd⟩ := follow_loop_total ((k0, e0) :: g') hnc
      (((k0, e0) :: g').length + 1) [k0] e0.nextEdgeIds.head? e0.id [some e0.id]
      (by simp) (List.nodup_singleton k0) (by simp)
      (List.chain'_singleton k0)
      (by
        intro nid h
        refine ⟨k0, rfl, ?_⟩
        simp only [next_edge_of, hf0]
        exact h)
      (by simp)
    refine ⟨Except.map some r, ?_, ?_⟩
    · simp only [follow_path_first_option]
      rw [hr]
      rfl
    · intro l hl
      cases r with
      | error msg => cases hl
      | ok l0 =>
        have hsome : some l0 = some l := by
          simpa [Except.map] using hl
        have hb2 := hbnd l0 rfl
        have hll : l0 = l := Option.some.inj hsome
        rw [← hll]
        simp only [List.length_cons, List.length_singleton, List.length_nil] at hb2 ⊢
        omega

/-- Witness for the amended C8 on the three-edge acyclic chain. -/
theorem follow_path_first_option_total_witness :
    ∃ r, follow_path_first_option exChain (exChain.length + 1) = some r ∧
      ∀ l, r = .ok (some l) → l.length ≤ exChain.length + 1 :=
  follow_path_first_option_total exChain (by decide) (by decide)

/-- C8 counterexample: exDrop is acyclic with exactly one distinct edge,
yet the function returns a sequence of two elements, because the
unresolved terminal successor is appended as a synthetic resolved token;
the claimed bound of one is exceeded. -/
theorem follow_path_bound_cex :
    noCycleB exDrop = true ∧ (exDrop.map Prod.fst).Nodup ∧ exDrop.length = 1 ∧
    follow_path_first_option exDrop 2 =
      some (.ok (some [some "vDevice/1!r1@eth0--x",
        some "vDevice/1!r1@ge-0/0/4.200--dropped--#0"])) ∧
    ¬(2 ≤ 1) := by
  exact ⟨by decide, by decide, rfl, rfl, by decide⟩

/-! ## Claim C9 -/

/-- C9: display_severity is total: it maps the four ranked levels 0, 10,
20 and 30 to four distinct symbols, and every other value to the single
unknown symbol, never failing. -/
theorem display_severity_total :
    display_severity 0 = "✅" ∧ display_severity 10 = "🔵" ∧ display_severity 20 = "🟠" ∧
    display_severity 30 = "❌" ∧
    ([("✅" : String), "🔵", "🟠", "❌", "❓"]).Nodup ∧
    ∀ v : Int, v ≠ 0 → v ≠ 10 → v ≠ 20 → v ≠ 30 → display_severity v = "❓" := by
  refine ⟨rfl, rfl, rfl, rfl, by decide, ?_⟩
  intro v h0 h10 h20 h30
  simp [display_severity, h0, h10, h20, h30]

/-- Witness for C9: the unrecognized severity 42 maps to the unknown
symbol. -/
theorem display_severity_total_witness : display_severity 42 = "❓" :=
  display_severity_total.2.2.2.2.2 42 (by decide) (by decide) (by decide) (by decide)

/-! ## Claim C10 -/

/-- C10: the name-only mode of remove_vdevice_id is exactly the
projection of the pair mode to its display-name component. -/
theorem remove_vdevice_id_modes_agree :
    ∀ t : String, remove_vdevice_id t false = Sum.inl (rv_pair_name t) := by
  intro t
  simp only [remove_vdevice_id, rv_pair_name]
  cases h : pySplit t "!" with
  | nil => simp
  | cons a l => cases l <;> simp

/-! ## Claim C6 -/

/-- C6: when the device id of the unresolved successor token does not
occur followed by the hostname separator in the predecessor edge id, the
code raises IndexError instead of returning the token unchanged: the
split of the predecessor id produces a single element and indexing it at
1 raises. -/
theorem replace_vdevice_id_unresolvable_raises :
    replace_vdevice_id ⟨"D1!r1@eth0--D2@eth1--#0", ["D3@eth1--dropped--#0"]⟩ =
      .error "IndexError" := rfl

/-! ## Claim C7 -/

/-- C7 counterexample: on the empty PathGraph the function returns the
Python value None (embedded as ok none), not the empty sequence. -/
theorem follow_path_empty_returns_none :
    follow_path_first_option [] 1 = some (.ok none) ∧
    (some (Except.ok none) : Option (Except String (Option (List (Option String))))) ≠
      some (.ok (some [])) := by
  exact ⟨rfl, by simp⟩

/-- C7 amended: on the empty PathGraph follow_path_first_option returns
None without raising, a falsy no-path outcome that is distinguishable
from a one-edge graph without successors, which yields a non-empty
sequence. -/
theorem follow_path_empty_vs_one_edge :
    ∀ fuel : Nat,
      follow_path_first_option [] fuel = some (.ok none) ∧
      follow_path_first_option [("E1", ⟨"E1", []⟩)] fuel = some (.ok (some [some "E1"])) ∧
      (Except.ok (none : Option (List (Option String))) : Except String _) ≠
        .ok (some [some "E1"]) := by
  intro fuel
  refine ⟨rfl, ?_, by simp⟩
  show (follow_loop _ fuel none "E1" [some "E1"]).map (Except.map some) = _
  rw [follow_loop_none]
  rfl

end IPF
